import Mathlib

/-!
Verification of the opencode-allowlist plugin core (src/index.ts).

The development shallowly embeds the plugin's decision logic:
* a model of JSON values as produced by JSON.parse,
* models of the Node path-library functions the code calls
  (path.resolve, path.join, path.dirname), operating on character lists,
* the config locator (findConfigFiles / the ancestor while-loop),
* the config merger (getAllowedDirectories with its memoization cache),
* the path authorizer (isPathAllowed),
* the permission.ask hook.

File-system reads and JSON parsing are external collaborators; they are
modelled by an environment (FS) that assigns each path its access result
and the outcome of readFile+JSON.parse.  Thrown JavaScript exceptions are
modelled explicitly: operations whose source can throw outside a
try/catch return an error component.
-/

namespace Allowlist

/-- JSON values as produced by JSON.parse (numbers collapsed to Int,
which suffices for the properties studied here). -/
inductive JSON where
  | null
  | bool (b : Bool)
  | num (n : Int)
  | str (s : String)
  | arr (elems : List JSON)
  | obj (fields : List (String × JSON))

/-- JavaScript truthiness of a JSON value. -/
def truthy : JSON → Bool
  | JSON.null => false
  | JSON.bool b => b
  | JSON.num n => n != 0
  | JSON.str s => s != ""
  | JSON.arr _ => true
  | JSON.obj _ => true

/-- SameValueZero equality as used by JavaScript Set membership,
restricted to the values that can occur here: primitive JSON values
compare by value; arrays/objects coming out of JSON.parse are always
fresh references, hence never equal to a previously stored value. -/
def primEq : JSON → JSON → Bool
  | JSON.null, JSON.null => true
  | JSON.bool a, JSON.bool b => a == b
  | JSON.num a, JSON.num b => a == b
  | JSON.str a, JSON.str b => a == b
  | _, _ => false

/-- JavaScript property lookup on a materialized object's field list
(JSON.parse collapses duplicate keys, so first match suffices). -/
def lookupField : List (String × JSON) → String → Option JSON
  | [], _ => none
  | (k', v) :: rest, k => if k' = k then some v else lookupField rest k

/-- Reading `config.allowedDirectories`: property access on an arbitrary JSON
value.  Accessing a property of `null` throws a TypeError; primitives
box and yield `undefined` (`none`); objects look the field up. -/
def getField : JSON → String → Except String (Option JSON)
  | JSON.null, _ => Except.error "TypeError"
  | JSON.obj fields, k => Except.ok (lookupField fields k)
  | _, _ => Except.ok none

/-- Model of `input.metadata?.parentDir`-style optional-chained property access:
short-circuits to `undefined` on `undefined`/`null`, never throws. -/
def optChainGet : Option JSON → String → Option JSON
  | none, _ => none
  | some JSON.null, _ => none
  | some (JSON.obj fields), k => lookupField fields k
  | some _, _ => none

/-- JavaScript `a || b` on possibly-undefined values. -/
def jsOr (a b : Option JSON) : Option JSON :=
  match a with
  | some v => if truthy v then some v else b
  | none => b

/-- Result of `fs.access`+`fs.readFile`+`JSON.parse` on one path:
the file may be missing, the read/parse may throw, or a JSON value
is produced. -/
inductive FileData where
  | missing
  | readFail
  | data (j : JSON)

/-- The file-system environment: which paths pass `fs.access`, and what
`readFile`+`JSON.parse` yields per path. -/
structure FS where
  accessOk : String → Bool
  file : String → FileData

/-- The host environment handed to the plugin: HOME / USERPROFILE
environment variables (absent = `none`), the starting directory, the
worktree boundary, and the process working directory used by
`path.resolve`. -/
structure Env where
  home : Option String
  userProfile : Option String
  directory : String
  worktree : String
  cwd : String

/-- Model of `process.env.X || fallback` (an empty environment variable is falsy). -/
def envOr (a : Option String) (b : String) : String :=
  match a with
  | some s => if s = "" then b else s
  | none => b

/-! ## Model of the Node `path` library (posix) -/

/-- Split a character list at `/` (model of scanning a path string by
separator; equivalent to JS `split("/")`, empty segments included). -/
def splitSlash : List Char → List (List Char)
  | [] => [[]]
  | c :: rest =>
    let r := splitSlash rest
    if c = '/' then [] :: r
    else
      match r with
      | [] => [[c]]
      | h :: t => (c :: h) :: t

/-- The segments of a path string. -/
def splitSegs (s : String) : List String :=
  (splitSlash s.data).map (fun l => String.mk l)

/-- Whether the first character is the path separator. -/
def startsWithSlash (s : String) : Bool :=
  s.data.head? == some '/'

/-- Whether the last character is the path separator. -/
def endsWithSlash (s : String) : Bool :=
  s.data.getLast? == some '/'

/-- One step of Node's `normalizeString`: process one segment against
the stack of kept segments.  `allowAboveRoot` (used for relative paths)
keeps leading `..` segments instead of dropping them. -/
def normSeg (allowAboveRoot : Bool) (stack : List String) (seg : String) : List String :=
  if seg = "" || seg = "." then stack
  else if seg = ".." then
    if allowAboveRoot then
      match stack.getLast? with
      | some l => if l = ".." then stack ++ [".."] else stack.dropLast
      | none => stack ++ [".."]
    else stack.dropLast
  else stack ++ [seg]

/-- Node `path.normalize` (posix). -/
def pathNormalize (p : String) : String :=
  if p = "" then "."
  else
    let isAbs := startsWithSlash p
    let trailing := endsWithSlash p && p.length != 1
    let segs := (splitSegs p).foldl (normSeg (!isAbs)) []
    let body := String.intercalate "/" segs
    let body1 :=
      if body = "" then (if isAbs then "" else (if trailing then "./" else "."))
      else (if trailing then body ++ "/" else body)
    if isAbs then "/" ++ body1 else body1

/-- Node `path.join` (posix): join the non-empty parts with `/` and
normalize. -/
def pathJoin (parts : List String) : String :=
  pathNormalize (String.intercalate "/" (parts.filter (fun s => s ≠ "")))

/-- Node `path.resolve` (posix) with the process working directory made
explicit; single path argument as in the plugin. -/
def pathResolve (cwd p : String) : String :=
  let resolvedPath := if startsWithSlash p then p else cwd ++ "/" ++ p
  let isAbs := startsWithSlash resolvedPath
  let segs := (splitSegs resolvedPath).foldl (normSeg (!isAbs)) []
  let body := String.intercalate "/" segs
  if isAbs then "/" ++ body else (if body = "" then "." else body)

/-- JS `String.prototype.startsWith`: literal character prefix test. -/
def jsStartsWith (s pre : String) : Bool :=
  List.isPrefixOf pre.data s.data

/-- Node `path.dirname` (posix): drop trailing separators, drop the last
component, and return everything up to (excluding) the separator before
it; `/` for rootless absolute remainders, `.` for relative ones. -/
def dirname (p : String) : String :=
  if p = "" then "."
  else
    let cs := p.data
    let hasRoot : Bool := cs.head? == some '/'
    let rest :=
      ((cs.drop 1).reverse.dropWhile (fun c => c == '/')).dropWhile (fun c => !(c == '/'))
    if rest = [] then (if hasRoot then "/" else ".")
    else if hasRoot && rest.length == 1 then "//"
    else String.mk (cs.take rest.length)

/-! ## Config locator -/

/-- The config path probed in a directory:
`path.join(currentDir, ".opencode", "opencode-allowlist.json")`. -/
def cfgPath (dir : String) : String :=
  pathJoin [dir, ".opencode", "opencode-allowlist.json"]

/-- Termination measure for the ancestor walk (`dirname` strictly
decreases it until a fixpoint is reached). -/
def dirMeasure (s : String) : Nat :=
  if s = "." ∨ s = "/" then 1 else s.length + 2

/-- The `while (true)` ancestor loop of `findConfigFiles`, with an
explicit fuel argument so that the definition is structural;
`walkUp` instantiates the fuel with the termination measure, and the
fuel-independence theorem below is the termination statement. -/
def walkUpF (fs : FS) (worktree : String) : Nat → String → List String → List String
  | 0, _, acc => acc
  | fuel + 1, currentDir, acc =>
    let acc' := if fs.accessOk (cfgPath currentDir) then acc ++ [cfgPath currentDir] else acc
    if currentDir = worktree then acc'
    else if dirname currentDir = currentDir then acc'
    else walkUpF fs worktree fuel (dirname currentDir) acc'

/-- The ancestor loop of `findConfigFiles`: starting at `currentDir`,
probe `<dir>/.opencode/opencode-allowlist.json` at every step, stop at
the worktree or when `dirname` reaches a fixpoint (filesystem root). -/
def walkUp (fs : FS) (worktree currentDir : String) (acc : List String) : List String :=
  walkUpF fs worktree (dirMeasure currentDir) currentDir acc

/-- The chain of directories the ancestor loop visits (fuelled). -/
def visitedDirsF (worktree : String) : Nat → String → List String
  | 0, _ => []
  | fuel + 1, currentDir =>
    if currentDir = worktree then [currentDir]
    else if dirname currentDir = currentDir then [currentDir]
    else currentDir :: visitedDirsF worktree fuel (dirname currentDir)

/-- The chain of directories the ancestor loop visits. -/
def visitedDirs (worktree currentDir : String) : List String :=
  visitedDirsF worktree (dirMeasure currentDir) currentDir

/-- The locator `findConfigFiles`: the two fixed global config paths (kept when they
exist, in order), followed by the results of the ancestor walk from
`directory` up to `worktree`. -/
def findConfigFiles (fs : FS) (env : Env) : List String :=
  let homeDir := envOr env.home (envOr env.userProfile "~")
  let globalConfigPaths :=
    [pathJoin [homeDir, ".config", "opencode", "opencode-allowlist.json"],
     pathJoin [homeDir, ".local", "share", "opencode", "config", "opencode-allowlist.json"]]
  let configFiles := globalConfigPaths.filter fs.accessOk
  walkUp fs env.worktree env.directory configFiles

/-! ## Config merger -/

/-- Model of `allDirs.add(dir)` on a JS Set, represented as the insertion-ordered
list of stored values: primitives de-duplicate by value, array/object
values from JSON.parse are fresh references and always get stored. -/
def setAdd (s : List JSON) (v : JSON) : List JSON :=
  if s.any (primEq v) then s else s ++ [v]

/-- The body of the config-merge loop for one file: read+parse (all
failures caught: the file contributes nothing), take
`config.allowedDirectories || []` (a caught TypeError on `null`, the
empty array on falsy values), and `forEach`-add; calling `forEach` on a
truthy non-array throws, which the surrounding catch also swallows. -/
def mergeFile (fs : FS) (allDirs : List JSON) (configPath : String) : List JSON :=
  match fs.file configPath with
  | FileData.data config =>
    match getField config "allowedDirectories" with
    | Except.ok fieldVal =>
      let dirs :=
        match fieldVal with
        | some v => if truthy v then v else JSON.arr []
        | none => JSON.arr []
      match dirs with
      | JSON.arr xs => xs.foldl setAdd allDirs
      | _ => allDirs
    | Except.error _ => allDirs
  | _ => allDirs

/-- The directory entries one candidate file contributes to the merge
(mirrors `mergeFile`: nothing for failures, field misuse, or non-array
values; the array's elements otherwise). -/
def fileEntries (fs : FS) (p : String) : List JSON :=
  match fs.file p with
  | FileData.data config =>
    match getField config "allowedDirectories" with
    | Except.ok fieldVal =>
      let dirs :=
        match fieldVal with
        | some v => if truthy v then v else JSON.arr []
        | none => JSON.arr []
      match dirs with
      | JSON.arr xs => xs
      | _ => []
    | Except.error _ => []
  | _ => []

/-- The merged directory list computed on a cache miss:
locate the config files and fold the merge loop over them
(an empty location result short-circuits to the empty list). -/
def computeAllowedDirectories (fs : FS) (env : Env) : List JSON :=
  let configFiles := findConfigFiles fs env
  if configFiles = [] then []
  else configFiles.foldl (mergeFile fs) []

/-- The merger `getAllowedDirectories` with the `cachedDirs` closure variable made
explicit: returns the directory list together with the new cache state. -/
def getAllowedDirectories (fs : FS) (env : Env) :
    Option (List JSON) → List JSON × Option (List JSON)
  | some cachedDirs => (cachedDirs, some cachedDirs)
  | none =>
    let ds := computeAllowedDirectories fs env
    (ds, some ds)

/-! ## Path authorizer -/

/-- The authorizer `isPathAllowed` on the declared (string) types: scan the allowed
directories, resolving both sides and returning true on the first
literal-prefix match, false after exhausting the list. -/
def isPathAllowed (cwd requestedPath : String) : List String → Bool
  | [] => false
  | allowedDir :: restDirs =>
    if jsStartsWith (pathResolve cwd requestedPath) (pathResolve cwd allowedDir) then true
    else isPathAllowed cwd requestedPath restDirs

/-- Runtime `path.resolve`: throws a TypeError on any non-string
argument. -/
def pathResolveJS (cwd : String) : JSON → Except String String
  | JSON.str s => Except.ok (pathResolve cwd s)
  | _ => Except.error "TypeError"

/-- Runtime `isPathAllowed`, where the stored directory values and
the requested path are whatever JSON values flowed in: any non-string
reaching `path.resolve` throws out of the (catch-free) loop. -/
def isPathAllowedRT (cwd : String) (requestedPath : JSON) : List JSON → Except String Bool
  | [] => Except.ok false
  | allowedDir :: restDirs =>
    match pathResolveJS cwd allowedDir with
    | Except.error e => Except.error e
    | Except.ok normalizedAllowed =>
      match pathResolveJS cwd requestedPath with
      | Except.error e => Except.error e
      | Except.ok normalizedRequested =>
        if jsStartsWith normalizedRequested normalizedAllowed then Except.ok true
        else isPathAllowedRT cwd requestedPath restDirs

/-! ## The permission.ask hook -/

/-- The permission request as seen by the hook: its `type` and its
`metadata` object (an arbitrary JS value, `none` for `undefined`). -/
structure PermissionInput where
  type : String
  metadata : Option JSON

/-- The mutable output record: the `status` field the hook may assign,
plus all its other fields (which the hook never touches). -/
structure PermissionOutput where
  status : Option JSON
  rest : List (String × JSON)

/-- Result of one hook invocation: the output record after the call,
the exception that escaped (if any), and the new memoization cache. -/
structure HookResult where
  output : PermissionOutput
  thrown : Option String
  cache : Option (List JSON)

/-- The `permission.ask` handler: act only on `external_directory`
requests, extract `metadata?.parentDir || metadata?.filepath`, bail out
when it is falsy, load the (memoized) allowlist and set
`output.status = "allow"` on a successful authorization. -/
def permissionAsk (fs : FS) (env : Env) (input : PermissionInput)
    (output : PermissionOutput) (st : Option (List JSON)) : HookResult :=
  if input.type ≠ "external_directory" then ⟨output, none, st⟩
  else
    match jsOr (optChainGet input.metadata "parentDir") (optChainGet input.metadata "filepath") with
    | none => ⟨output, none, st⟩
    | some requestedDir =>
      if truthy requestedDir = false then ⟨output, none, st⟩
      else
        let res := getAllowedDirectories fs env st
        match isPathAllowedRT env.cwd requestedDir res.1 with
        | Except.error e => ⟨output, some e, res.2⟩
        | Except.ok true => ⟨{ output with status := some (JSON.str "allow") }, none, res.2⟩
        | Except.ok false => ⟨output, none, res.2⟩

/-- The exact condition under which the hook assigns `"allow"`:
an `external_directory` request carrying a truthy target path that the
authorizer accepts against the merged allowlist. -/
def allowCond (fs : FS) (env : Env) (input : PermissionInput)
    (st : Option (List JSON)) : Bool :=
  (input.type == "external_directory") &&
    match jsOr (optChainGet input.metadata "parentDir") (optChainGet input.metadata "filepath") with
    | none => false
    | some requestedDir =>
      truthy requestedDir &&
        match isPathAllowedRT env.cwd requestedDir (getAllowedDirectories fs env st).1 with
        | Except.ok true => true
        | _ => false

/-! ## Concrete sample environments (used by witnesses and
counterexamples) -/

/-- A file system with no config files at all. -/
def fsEmpty : FS :=
  { accessOk := fun _ => false
    file := fun _ => FileData.missing }

/-- A file system with one well-formed config at
`/w/.opencode/opencode-allowlist.json` allowing `/ok`. -/
def fsGood : FS :=
  { accessOk := fun p => p == "/w/.opencode/opencode-allowlist.json"
    file := fun p =>
      if p = "/w/.opencode/opencode-allowlist.json" then
        FileData.data (JSON.obj [("allowedDirectories", JSON.arr [JSON.str "/ok"])])
      else FileData.missing }

/-- A file system whose only config carries a non-string (numeric)
`allowedDirectories` entry — syntactically valid JSON. -/
def fsNum : FS :=
  { accessOk := fun p => p == "/w/.opencode/opencode-allowlist.json"
    file := fun p =>
      if p = "/w/.opencode/opencode-allowlist.json" then
        FileData.data (JSON.obj [("allowedDirectories", JSON.arr [JSON.num 42])])
      else FileData.missing }

/-- A sample host environment rooted at `/w`. -/
def sampleEnv : Env :=
  { home := some "/h", userProfile := none, directory := "/w", worktree := "/w", cwd := "/w" }

/-- A sample `external_directory` request for `/x`. -/
def sampleInput : PermissionInput :=
  { type := "external_directory", metadata := some (JSON.obj [("filepath", JSON.str "/x")]) }

/-- A pristine output record. -/
def sampleOutput : PermissionOutput := { status := none, rest := [] }

/-! ## Basic lemmas -/

theorem isPrefixOf_self (l : List Char) : List.isPrefixOf l l = true := by
  induction l with
  | nil => rfl
  | cons a as ih => simp [List.isPrefixOf, ih]

theorem jsStartsWith_self (s : String) : jsStartsWith s s = true :=
  isPrefixOf_self s.data

/-! ## Claim theorems -/

/-- Claim C1: for every set of allowed directories and every requested
path, `isPathAllowed` returns true iff some allowed directory's resolved
form is a literal character prefix of the requested path's resolved
form; the scan returns true at the first matching directory and returns
false only on the empty (exhausted) list. -/
theorem isPathAllowed_scan_characterization (cwd P : String) (D : List String) :
    (isPathAllowed cwd P D = true ↔
      ∃ d, d ∈ D ∧ jsStartsWith (pathResolve cwd P) (pathResolve cwd d) = true) ∧
    isPathAllowed cwd P [] = false ∧
    (∀ d restDirs, jsStartsWith (pathResolve cwd P) (pathResolve cwd d) = true →
      isPathAllowed cwd P (d :: restDirs) = true) := by
  refine ⟨?_, rfl, ?_⟩
  · induction D with
    | nil => simp [isPathAllowed]
    | cons d restDirs ih =>
      cases hb : jsStartsWith (pathResolve cwd P) (pathResolve cwd d) with
      | true =>
        constructor
        · intro _
          exact ⟨d, List.mem_cons_self d restDirs, hb⟩
        · intro _
          simp [isPathAllowed, hb]
      | false =>
        simp only [isPathAllowed, hb, Bool.false_eq_true, if_false]
        rw [ih]
        constructor
        · rintro ⟨d', hd', hsw⟩
          exact ⟨d', List.mem_cons_of_mem d hd', hsw⟩
        · rintro ⟨d', hd', hsw⟩
          rcases List.mem_cons.mp hd' with rfl | h'
          · rw [hb] at hsw; cases hsw
          · exact ⟨d', h', hsw⟩
  · intro d restDirs h
    simp [isPathAllowed, h]

/-- Claim C1 witness: the short-circuit clause at a concrete match. -/
theorem isPathAllowed_scan_characterization_witness :
    isPathAllowed "/" "/a/b/c" ["/a/b", "/zzz"] = true :=
  (isPathAllowed_scan_characterization "/" "/a/b/c" ["/a/b", "/zzz"]).2.2
    "/a/b" ["/zzz"] (by decide)

/-- Claim C2: sibling-prefix false positive — the allowed directory
`/a/b` authorizes `/a/bc/file`, which lives in the sibling directory
`/a/bc`, because the resolved strings compare by bare prefix with no
separator-boundary check. -/
theorem isPathAllowed_sibling_false_positive :
    isPathAllowed "/" "/a/bc/file" ["/a/b"] = true ∧
    jsStartsWith (pathResolve "/" "/a/bc/file") (pathResolve "/" "/a/b") = true := by
  decide

/-- Claim C10: requesting an allowed directory itself is approved —
any member of the allowed list authorizes itself, since a resolved path
is a prefix of itself. -/
theorem isPathAllowed_of_mem (cwd d : String) (D : List String) (h : d ∈ D) :
    isPathAllowed cwd d D = true := by
  induction D with
  | nil => cases h
  | cons a restDirs ih =>
    rcases List.mem_cons.mp h with rfl | h'
    · simp [isPathAllowed, jsStartsWith_self]
    · cases hb : jsStartsWith (pathResolve cwd d) (pathResolve cwd a) <;>
        simp [isPathAllowed, hb, ih h']

/-- Claim C10 witness. -/
theorem isPathAllowed_of_mem_witness :
    isPathAllowed "/" "/a/b" ["/q", "/a/b"] = true :=
  isPathAllowed_of_mem "/" "/a/b" ["/q", "/a/b"] (by decide)

/-- Claim C3: the hook either assigns status `"allow"` — exactly when
the request is an `external_directory` request with a present (truthy)
target path that is authorized against the merged allowlist — or
returns the output record exactly as it received it; no other status
value is ever written. -/
theorem permissionAsk_output_characterization (fs : FS) (env : Env)
    (input : PermissionInput) (output : PermissionOutput) (st : Option (List JSON)) :
    (permissionAsk fs env input output st).output =
      if allowCond fs env input st
      then { output with status := some (JSON.str "allow") } else output := by
  unfold permissionAsk allowCond
  by_cases ht : input.type = "external_directory"
  · rw [if_neg (by simp [ht])]
    simp only [ht, beq_self_eq_true, Bool.true_and]
    cases hj : jsOr (optChainGet input.metadata "parentDir") (optChainGet input.metadata "filepath") with
    | none => simp
    | some v =>
      cases htr : truthy v with
      | false => simp [htr]
      | true =>
        cases hr : isPathAllowedRT env.cwd v (getAllowedDirectories fs env st).1 with
        | error e => simp [htr, hr]
        | ok b => cases b <;> simp [htr, hr]
  · rw [if_pos ht]
    have : (input.type == "external_directory") = false := by
      simp [ht]
    simp [this]

/-- Claim C9: a request whose type is not `external_directory` is passed
through untouched — the same output record, no exception, and the cache
state unchanged — for every file system and environment, so no config
is consulted. -/
theorem permissionAsk_ignores_other_types (fs : FS) (env : Env)
    (input : PermissionInput) (output : PermissionOutput) (st : Option (List JSON))
    (h : input.type ≠ "external_directory") :
    permissionAsk fs env input output st = ⟨output, none, st⟩ := by
  unfold permissionAsk
  rw [if_pos h]

/-- Claim C9 witness: a `bash` request is ignored. -/
theorem permissionAsk_ignores_other_types_witness :
    permissionAsk fsGood sampleEnv ⟨"bash", none⟩ sampleOutput none =
      ⟨sampleOutput, none, none⟩ :=
  permissionAsk_ignores_other_types fsGood sampleEnv ⟨"bash", none⟩ sampleOutput none
    (by decide)

/-- Claim C6: the allowlist is memoized — a call that finds a populated
cache returns exactly the cached value (and leaves it in place) without
consulting the file system at all; the first call caches exactly what it
returns; and when the locator finds no config files the empty list is
cached as a normal (non-error) result. -/
theorem getAllowedDirectories_memoized (fs fs' : FS) (env env' : Env)
    (cachedDirs : List JSON) :
    getAllowedDirectories fs' env' (some cachedDirs) = (cachedDirs, some cachedDirs) ∧
    (getAllowedDirectories fs env none).2 = some (getAllowedDirectories fs env none).1 ∧
    (findConfigFiles fs env = [] → getAllowedDirectories fs env none = ([], some [])) := by
  refine ⟨rfl, rfl, ?_⟩
  intro h
  simp [getAllowedDirectories, computeAllowedDirectories, h]

/-- Claim C6 witness: with no config files anywhere, the empty list is
computed and cached. -/
theorem getAllowedDirectories_memoized_witness :
    getAllowedDirectories fsEmpty sampleEnv none = ([], some []) :=
  (getAllowedDirectories_memoized fsEmpty fsEmpty sampleEnv sampleEnv []).2.2 (by decide)

/-- Claim C7: a candidate config file whose read or parse fails — or
whose `allowedDirectories` field is absent or the empty array —
contributes nothing to the merge and does not abort it: folding the
merge over a list containing such a file equals folding the merge over
the remaining files. -/
theorem mergeFile_skips_bad_or_empty (fs : FS) (p : String)
    (h : fs.file p = FileData.missing ∨ fs.file p = FileData.readFail ∨
      ∃ j, fs.file p = FileData.data j ∧
        (getField j "allowedDirectories" = Except.ok none ∨
         getField j "allowedDirectories" = Except.ok (some (JSON.arr [])))) :
    (∀ s, mergeFile fs s p = s) ∧
    (∀ s restFiles,
      List.foldl (mergeFile fs) s (p :: restFiles) = List.foldl (mergeFile fs) s restFiles) := by
  have hm : ∀ s, mergeFile fs s p = s := by
    intro s
    rcases h with h | h | ⟨j, hj, hf⟩
    · simp [mergeFile, h]
    · simp [mergeFile, h]
    · rcases hf with hf | hf <;> simp [mergeFile, hj, hf]
  refine ⟨hm, ?_⟩
  intro s restFiles
  simp only [List.foldl_cons, hm]

/-- Claim C7 witness: a missing file contributes nothing and a
well-formed file after it is still merged. -/
theorem mergeFile_skips_bad_or_empty_witness :
    mergeFile fsGood [] "/nope" = [] ∧
    List.foldl (mergeFile fsGood) [] ["/nope", "/w/.opencode/opencode-allowlist.json"] =
      List.foldl (mergeFile fsGood) [] ["/w/.opencode/opencode-allowlist.json"] :=
  ⟨(mergeFile_skips_bad_or_empty fsGood "/nope" (Or.inl rfl)).1 [],
   (mergeFile_skips_bad_or_empty fsGood "/nope" (Or.inl rfl)).2 []
     ["/w/.opencode/opencode-allowlist.json"]⟩

/-! ## Runtime type errors (claim C4) -/

theorem isPathAllowedRT_ok_of_strings (cwd s₀ : String) :
    ∀ (dirs : List JSON), (∀ j ∈ dirs, ∃ t, j = JSON.str t) →
      ∃ b, isPathAllowedRT cwd (JSON.str s₀) dirs = Except.ok b := by
  intro dirs
  induction dirs with
  | nil => exact fun _ => ⟨false, rfl⟩
  | cons d restDirs ih =>
    intro h
    obtain ⟨t, rfl⟩ := h d (List.mem_cons_self d restDirs)
    by_cases hb : jsStartsWith (pathResolve cwd s₀) (pathResolve cwd t) = true
    · exact ⟨true, by simp [isPathAllowedRT, pathResolveJS, hb]⟩
    · obtain ⟨b, hb'⟩ := ih (fun j hj => h j (List.mem_cons_of_mem _ hj))
      exact ⟨b, by simp [isPathAllowedRT, pathResolveJS, hb, hb']⟩

/-- Claim C4, counterexample: a syntactically valid config whose
`allowedDirectories` holds the JSON number `42` survives discovery and
merge unscathed, but the very first `external_directory` request then
escapes the hook as an uncaught TypeError (`path.resolve` rejects the
non-string), so not every input completes without raising. -/
theorem permissionAsk_throws_on_nonstring_entry :
    (permissionAsk fsNum sampleEnv sampleInput sampleOutput none).thrown = some "TypeError" := by
  decide

/-- Claim C4, amended: provided every merged directory entry is a string
and the request's extracted target path (when present and truthy) is a
string, no operation of the core raises — the hook completes without an
exception and either leaves the output untouched or sets it to allow
(never anything else), so every failure degrades to not auto-approving. -/
theorem permissionAsk_no_throw_of_strings (fs : FS) (env : Env)
    (input : PermissionInput) (output : PermissionOutput) (st : Option (List JSON))
    (hdirs : ∀ j ∈ (getAllowedDirectories fs env st).1, ∃ t, j = JSON.str t)
    (hreq : ∀ v,
      jsOr (optChainGet input.metadata "parentDir") (optChainGet input.metadata "filepath") = some v →
      truthy v = true → ∃ t, v = JSON.str t) :
    (permissionAsk fs env input output st).thrown = none ∧
    ((permissionAsk fs env input output st).output = output ∨
     (permissionAsk fs env input output st).output =
       { output with status := some (JSON.str "allow") }) := by
  unfold permissionAsk
  by_cases ht : input.type = "external_directory"
  · rw [if_neg (by simp [ht])]
    cases hj : jsOr (optChainGet input.metadata "parentDir") (optChainGet input.metadata "filepath") with
    | none => exact ⟨rfl, Or.inl rfl⟩
    | some v =>
      cases htr : truthy v with
      | false => simp [htr]
      | true =>
        obtain ⟨t, rfl⟩ := hreq v hj htr
        obtain ⟨b, hb⟩ :=
          isPathAllowedRT_ok_of_strings env.cwd t (getAllowedDirectories fs env st).1 hdirs
        cases b <;> simp [htr, hb]
  · rw [if_pos ht]
    exact ⟨rfl, Or.inl rfl⟩

/-- Claim C4 witness (for the amended claim): with a well-formed
string-only config and a string target, the hook finishes cleanly. -/
theorem permissionAsk_no_throw_of_strings_witness :
    (permissionAsk fsGood sampleEnv sampleInput sampleOutput none).thrown = none ∧
    ((permissionAsk fsGood sampleEnv sampleInput sampleOutput none).output = sampleOutput ∨
     (permissionAsk fsGood sampleEnv sampleInput sampleOutput none).output =
       { sampleOutput with status := some (JSON.str "allow") }) := by
  refine permissionAsk_no_throw_of_strings fsGood sampleEnv sampleInput sampleOutput none ?_ ?_
  · have hds : (getAllowedDirectories fsGood sampleEnv none).1 = [JSON.str "/ok"] := rfl
    rw [hds]
    intro j hj
    rw [List.mem_singleton] at hj
    exact ⟨"/ok", hj⟩
  · intro v hv _
    have h0 :
        jsOr (optChainGet sampleInput.metadata "parentDir")
          (optChainGet sampleInput.metadata "filepath") = some (JSON.str "/x") := rfl
    rw [h0] at hv
    exact ⟨"/x", (Option.some.inj hv).symm⟩

/-! ## Merge as a set (claim C8) -/

theorem primEq_imp_eq (a b : JSON) (h : primEq a b = true) : a = b := by
  cases a <;> cases b <;> simp_all [primEq]

theorem mem_setAdd (v w : JSON) (s : List JSON) : v ∈ setAdd s w ↔ v ∈ s ∨ v = w := by
  unfold setAdd
  by_cases h : s.any (primEq w) = true
  · rw [if_pos h]
    constructor
    · exact Or.inl
    · rintro (hv | rfl)
      · exact hv
      · obtain ⟨u, hu, hpe⟩ := List.any_eq_true.mp h
        rw [primEq_imp_eq v u hpe]
        exact hu
  · rw [if_neg h]
    simp [List.mem_append]

theorem mem_foldl_setAdd (v : JSON) :
    ∀ (xs s : List JSON), v ∈ xs.foldl setAdd s ↔ v ∈ s ∨ v ∈ xs := by
  intro xs
  induction xs with
  | nil => intro s; simp
  | cons x xs ih =>
    intro s
    simp only [List.foldl_cons]
    rw [ih (setAdd s x), mem_setAdd]
    simp only [List.mem_cons]
    tauto

theorem mergeFile_eq_foldl (fs : FS) (p : String) (s : List JSON) :
    mergeFile fs s p = (fileEntries fs p).foldl setAdd s := by
  cases hfp : fs.file p with
  | missing => simp [mergeFile, fileEntries, hfp]
  | readFail => simp [mergeFile, fileEntries, hfp]
  | data config =>
    cases hgf : getField config "allowedDirectories" with
    | error e => simp [mergeFile, fileEntries, hfp, hgf]
    | ok fieldVal =>
      cases fieldVal with
      | none => simp [mergeFile, fileEntries, hfp, hgf]
      | some v =>
        cases htv : truthy v <;> cases v <;>
          simp_all [mergeFile, fileEntries, hfp, hgf]

theorem mem_merge (fs : FS) (v : JSON) :
    ∀ (files : List String) (s : List JSON),
      v ∈ files.foldl (mergeFile fs) s ↔ v ∈ s ∨ ∃ p, p ∈ files ∧ v ∈ fileEntries fs p := by
  intro files
  induction files with
  | nil => intro s; simp
  | cons q qs ih =>
    intro s
    simp only [List.foldl_cons]
    rw [ih (mergeFile fs s q), mergeFile_eq_foldl fs q s, mem_foldl_setAdd]
    constructor
    · rintro ((h | h) | ⟨p, hp, hpe⟩)
      · exact Or.inl h
      · exact Or.inr ⟨q, List.mem_cons_self q qs, h⟩
      · exact Or.inr ⟨p, List.mem_cons_of_mem q hp, hpe⟩
    · rintro (h | ⟨p, hp, hpe⟩)
      · exact Or.inl (Or.inl h)
      · rcases List.mem_cons.mp hp with rfl | hp'
        · exact Or.inl (Or.inr hpe)
        · exact Or.inr ⟨p, hp', hpe⟩

theorem countP_setAdd (t : String) (s : List JSON) (w : JSON)
    (h : s.countP (primEq (JSON.str t)) ≤ 1) :
    (setAdd s w).countP (primEq (JSON.str t)) ≤ 1 := by
  unfold setAdd
  by_cases ha : s.any (primEq w) = true
  · rw [if_pos ha]
    exact h
  · rw [if_neg ha]
    rw [List.countP_append]
    by_cases hw : primEq (JSON.str t) w = true
    · have hnm : ∀ u ∈ s, ¬(primEq w u = true) :=
        fun u hu hp => ha (List.any_eq_true.mpr ⟨u, hu, hp⟩)
      have h0 : s.countP (primEq (JSON.str t)) = 0 := by
        rw [List.countP_eq_zero]
        intro u hu hcon
        exact hnm u hu (primEq_imp_eq _ _ hw ▸ hcon)
      have h1 : List.countP (primEq (JSON.str t)) [w] = 1 := by
        simp [List.countP_cons, hw]
      omega
    · have h1 : List.countP (primEq (JSON.str t)) [w] = 0 := by
        simp [List.countP_cons, hw]
      omega

theorem countP_foldl_setAdd (t : String) :
    ∀ (xs s : List JSON), s.countP (primEq (JSON.str t)) ≤ 1 →
      (xs.foldl setAdd s).countP (primEq (JSON.str t)) ≤ 1 := by
  intro xs
  induction xs with
  | nil => exact fun s h => h
  | cons x xs ih =>
    intro s h
    simp only [List.foldl_cons]
    exact ih (setAdd s x) (countP_setAdd t s x h)

theorem countP_merge (fs : FS) (t : String) :
    ∀ (files : List String) (s : List JSON), s.countP (primEq (JSON.str t)) ≤ 1 →
      (files.foldl (mergeFile fs) s).countP (primEq (JSON.str t)) ≤ 1 := by
  intro files
  induction files with
  | nil => exact fun s h => h
  | cons q qs ih =>
    intro s h
    simp only [List.foldl_cons]
    refine ih (mergeFile fs s q) ?_
    rw [mergeFile_eq_foldl fs q s]
    exact countP_foldl_setAdd t (fileEntries fs q) s h

/-- Claim C8: the merge behaves as an order-independent, de-duplicating
set union — folding the merge over any permutation of the same config
files yields the same membership, and any given directory string occurs
at most once in the merged result. -/
theorem merge_order_independent_and_dedup :
    (∀ (fs : FS) (s : List JSON) (files₁ files₂ : List String), files₁.Perm files₂ →
      ∀ v, v ∈ files₁.foldl (mergeFile fs) s ↔ v ∈ files₂.foldl (mergeFile fs) s) ∧
    (∀ (fs : FS) (files : List String) (t : String),
      (files.foldl (mergeFile fs) []).countP (primEq (JSON.str t)) ≤ 1) := by
  constructor
  · intro fs s l₁ l₂ hperm v
    rw [mem_merge fs v l₁ s, mem_merge fs v l₂ s]
    constructor
    · rintro (h | ⟨p, hp, hpe⟩)
      · exact Or.inl h
      · exact Or.inr ⟨p, hperm.mem_iff.mp hp, hpe⟩
    · rintro (h | ⟨p, hp, hpe⟩)
      · exact Or.inl h
      · exact Or.inr ⟨p, hperm.mem_iff.mpr hp, hpe⟩
  · intro fs files t
    exact countP_merge fs t files [] (by simp)

/-- Claim C8 witness: swapping two config files preserves membership of
the merged set, and the merged set holds `/ok` at most once. -/
theorem merge_order_independent_and_dedup_witness :
    (JSON.str "/ok" ∈
        ["/w/.opencode/opencode-allowlist.json", "/nope"].foldl (mergeFile fsGood) [] ↔
      JSON.str "/ok" ∈
        ["/nope", "/w/.opencode/opencode-allowlist.json"].foldl (mergeFile fsGood) []) ∧
    (["/w/.opencode/opencode-allowlist.json"].foldl (mergeFile fsGood) []).countP
        (primEq (JSON.str "/ok")) ≤ 1 :=
  ⟨merge_order_independent_and_dedup.1 fsGood []
      ["/w/.opencode/opencode-allowlist.json", "/nope"]
      ["/nope", "/w/.opencode/opencode-allowlist.json"]
      (List.Perm.swap "/nope" "/w/.opencode/opencode-allowlist.json" [])
      (JSON.str "/ok"),
   merge_order_independent_and_dedup.2 fsGood
     ["/w/.opencode/opencode-allowlist.json"] "/ok"⟩

/-! ## The ancestor walk (claim C5) -/

theorem one_le_length_of_ne_empty (p : String) (hp : p ≠ "") : 1 ≤ p.length := by
  cases p with
  | mk l =>
    cases l with
    | nil => exact absurd rfl hp
    | cons c cs => exact Nat.le_add_left 1 cs.length

theorem dropWhile_head_false {α : Type} (p : α → Bool) :
    ∀ (l : List α) (c : α) (t : List α), l.dropWhile p = c :: t → p c = false := by
  intro l
  induction l with
  | nil =>
    intro c t h
    exact absurd h (by simp)
  | cons a as ih =>
    intro c t h
    rw [List.dropWhile_cons] at h
    by_cases ha : p a = true
    · rw [if_pos ha] at h
      exact ih c t h
    · rw [if_neg ha] at h
      cases h
      simpa using ha

theorem dropWhile_dropWhile_length {α : Type} (P Q : α → Bool)
    (hPQ : ∀ c, P c = false → Q c = true) (l : List α)
    (h : (l.dropWhile P).dropWhile Q ≠ []) :
    ((l.dropWhile P).dropWhile Q).length + 1 ≤ l.length := by
  rcases he : l.dropWhile P with _ | ⟨c, t⟩
  · rw [he] at h
    simp at h
  · have hc : P c = false := dropWhile_head_false P l c t he
    have hQ : Q c = true := hPQ c hc
    have h2 : (l.dropWhile P).length ≤ l.length := (List.dropWhile_sublist P).length_le
    rw [he] at h2
    have h3 : (t.dropWhile Q).length ≤ t.length := (List.dropWhile_sublist Q).length_le
    have h4 : ((c :: t).dropWhile Q).length = (t.dropWhile Q).length := by
      rw [List.dropWhile_cons, if_pos hQ]
    simp only [List.length_cons] at h2
    omega

theorem dirMeasure_pos (s : String) : 1 ≤ dirMeasure s := by
  unfold dirMeasure
  split <;> omega

theorem dirMeasure_le (s : String) : dirMeasure s ≤ s.length + 2 := by
  unfold dirMeasure
  split <;> omega

theorem dirname_cases (p : String) (hp : p ≠ "") :
    dirname p =
      (if ((p.data.drop 1).reverse.dropWhile (fun c => c == '/')).dropWhile
            (fun c => !(c == '/')) = []
        then (if (p.data.head? == some '/' : Bool) then "/" else ".")
        else if (p.data.head? == some '/' : Bool) &&
            (((p.data.drop 1).reverse.dropWhile (fun c => c == '/')).dropWhile
              (fun c => !(c == '/'))).length == 1
          then "//"
        else String.mk (p.data.take
            (((p.data.drop 1).reverse.dropWhile (fun c => c == '/')).dropWhile
              (fun c => !(c == '/'))).length)) := by
  unfold dirname
  rw [if_neg hp]

/-- The function `dirname` strictly decreases the walk measure away from fixpoints:
this is the termination argument of the ancestor loop. -/
theorem dirMeasure_dirname_lt (p : String) (h : dirname p ≠ p) :
    dirMeasure (dirname p) < dirMeasure p := by
  by_cases hdot : p = "."
  · subst hdot
    exact absurd rfl h
  by_cases hslash : p = "/"
  · subst hslash
    exact absurd rfl h
  by_cases hemp : p = ""
  · subst hemp
    decide
  have hmp : dirMeasure p = p.length + 2 := by
    unfold dirMeasure
    rw [if_neg]
    push_neg
    exact ⟨hdot, hslash⟩
  have hlen1 : 1 ≤ p.length := one_le_length_of_ne_empty p hemp
  have hdl : p.data.length = p.length := rfl
  rw [hmp, dirname_cases p hemp]
  set RL := ((p.data.drop 1).reverse.dropWhile (fun c => c == '/')).dropWhile
    (fun c => !(c == '/')) with hRL
  have hbound : RL ≠ [] → RL.length + 2 ≤ p.length := by
    intro hne
    rw [hRL] at hne
    have h1 := dropWhile_dropWhile_length (fun c => c == '/') (fun c => !(c == '/'))
      (fun c hc => by simp [hc]) ((p.data.drop 1).reverse) hne
    have h2 : ((p.data.drop 1).reverse).length = p.data.length - 1 := by
      simp
    rw [hRL]
    omega
  split
  · split
    · rw [show dirMeasure "/" = 1 from by decide]
      omega
    · rw [show dirMeasure "." = 1 from by decide]
      omega
  · rename_i hrest0
    have hb := hbound hrest0
    split
    · rename_i hcond
      rw [show dirMeasure "//" = 4 from by decide]
      rw [Bool.and_eq_true] at hcond
      have hl1 : RL.length = 1 := by simpa using hcond.2
      omega
    · have hm := dirMeasure_le (String.mk (p.data.take RL.length))
      have hms : (String.mk (p.data.take RL.length)).length = (p.data.take RL.length).length :=
        rfl
      have htk : (p.data.take RL.length).length ≤ RL.length := by
        rw [List.length_take]
        exact Nat.min_le_left _ _
      omega

theorem visitedDirsF_congr (w : String) :
    ∀ f₁ f₂ c, dirMeasure c ≤ f₁ → dirMeasure c ≤ f₂ →
      visitedDirsF w f₁ c = visitedDirsF w f₂ c := by
  intro f₁
  induction f₁ with
  | zero =>
    intro f₂ c h1 _
    have := dirMeasure_pos c
    omega
  | succ n ih =>
    intro f₂ c h1 h2
    cases f₂ with
    | zero =>
      have := dirMeasure_pos c
      omega
    | succ m =>
      simp only [visitedDirsF]
      by_cases hcw : c = w
      · simp [hcw]
      · by_cases hfix : dirname c = c
        · simp [hcw, hfix]
        · simp only [if_neg hcw, if_neg hfix]
          have hlt := dirMeasure_dirname_lt c hfix
          rw [ih m (dirname c) (by omega) (by omega)]

theorem walkUpF_congr (fs : FS) (w : String) :
    ∀ f₁ f₂ c acc, dirMeasure c ≤ f₁ → dirMeasure c ≤ f₂ →
      walkUpF fs w f₁ c acc = walkUpF fs w f₂ c acc := by
  intro f₁
  induction f₁ with
  | zero =>
    intro f₂ c acc h1 _
    have := dirMeasure_pos c
    omega
  | succ n ih =>
    intro f₂ c acc h1 h2
    cases f₂ with
    | zero =>
      have := dirMeasure_pos c
      omega
    | succ m =>
      simp only [walkUpF]
      by_cases hcw : c = w
      · simp [hcw]
      · by_cases hfix : dirname c = c
        · simp [hcw, hfix]
        · simp only [if_neg hcw, if_neg hfix]
          have hlt := dirMeasure_dirname_lt c hfix
          exact ih m (dirname c) _ (by omega) (by omega)

theorem walkUpF_eq_visited (fs : FS) (w : String) :
    ∀ f c acc, dirMeasure c ≤ f →
      walkUpF fs w f c acc =
        acc ++ ((visitedDirsF w f c).map cfgPath).filter fs.accessOk := by
  intro f
  induction f with
  | zero =>
    intro c acc h
    have := dirMeasure_pos c
    omega
  | succ n ih =>
    intro c acc h
    simp only [walkUpF, visitedDirsF]
    by_cases hcw : c = w
    · rw [if_pos hcw, if_pos hcw]
      cases hacc : fs.accessOk (cfgPath c) <;> simp [hacc]
    · by_cases hfix : dirname c = c
      · rw [if_neg hcw, if_pos hfix, if_neg hcw, if_pos hfix]
        cases hacc : fs.accessOk (cfgPath c) <;> simp [hacc]
      · rw [if_neg hcw, if_neg hfix, if_neg hcw, if_neg hfix]
        have hlt := dirMeasure_dirname_lt c hfix
        rw [ih (dirname c) _ (by omega)]
        cases hacc : fs.accessOk (cfgPath c) <;>
          simp [hacc, List.map_cons, List.filter_cons, List.append_assoc]

theorem visitedDirsF_boundary (w : String) :
    ∀ f c, dirMeasure c ≤ f → w ∈ visitedDirsF w f c →
      (visitedDirsF w f c).getLast? = some w := by
  intro f
  induction f with
  | zero =>
    intro c h _
    have := dirMeasure_pos c
    omega
  | succ n ih =>
    intro c h hmem
    simp only [visitedDirsF] at hmem ⊢
    by_cases hcw : c = w
    · simp [hcw]
    · by_cases hfix : dirname c = c
      · rw [if_neg hcw, if_pos hfix] at hmem
        rw [List.mem_singleton] at hmem
        exact absurd hmem.symm hcw
      · rw [if_neg hcw, if_neg hfix] at hmem ⊢
        have hlt := dirMeasure_dirname_lt c hfix
        have hmem' : w ∈ visitedDirsF w n (dirname c) := by
          rcases List.mem_cons.mp hmem with h' | h'
          · exact absurd h'.symm hcw
          · exact h'
        have hlast := ih (dirname c) (by omega) hmem'
        rcases hne : visitedDirsF w n (dirname c) with _ | ⟨x, xs⟩
        · rw [hne] at hmem'
          cases hmem'
        · rw [hne] at hlast
          rw [List.getLast?_cons_cons]
          exact hlast

theorem visitedDirsF_root (w : String) :
    ∀ f c, dirMeasure c ≤ f → w ∉ visitedDirsF w f c →
      ∃ r, (visitedDirsF w f c).getLast? = some r ∧ dirname r = r := by
  intro f
  induction f with
  | zero =>
    intro c h _
    have := dirMeasure_pos c
    omega
  | succ n ih =>
    intro c h hnmem
    simp only [visitedDirsF] at hnmem ⊢
    by_cases hcw : c = w
    · rw [if_pos hcw] at hnmem
      exact absurd (by rw [hcw]; exact List.mem_singleton.mpr rfl) hnmem
    · by_cases hfix : dirname c = c
      · rw [if_neg hcw, if_pos hfix] at hnmem ⊢
        exact ⟨c, rfl, hfix⟩
      · rw [if_neg hcw, if_neg hfix] at hnmem ⊢
        have hlt := dirMeasure_dirname_lt c hfix
        have hn' : w ∉ visitedDirsF w n (dirname c) :=
          fun hmem => hnmem (List.mem_cons_of_mem c hmem)
        obtain ⟨r, hr1, hr2⟩ := ih (dirname c) (by omega) hn'
        rcases hne : visitedDirsF w n (dirname c) with _ | ⟨x, xs⟩
        · rw [hne] at hr1
          simp at hr1
        · rw [hne] at hr1
          rw [List.getLast?_cons_cons]
          exact ⟨r, hr1, hr2⟩

/-- Claim C5: the ancestor walk of the config locator terminates and
respects the boundary.  With enough fuel the loop's result no longer
depends on the fuel (the loop finishes within `dirMeasure` steps); the
files it collects are exactly the existing config probes of the visited
chain; if the worktree boundary is reached it is the last directory
visited (nothing above it is ever probed); and if the boundary is never
reached the walk still stops, at a `dirname` fixpoint (filesystem
root). -/
theorem walkUp_terminates_and_respects_boundary (fs : FS) (w c : String)
    (acc : List String) (f : Nat) (hf : dirMeasure c ≤ f) :
    walkUpF fs w f c acc = walkUp fs w c acc ∧
    walkUp fs w c acc = acc ++ ((visitedDirs w c).map cfgPath).filter fs.accessOk ∧
    (w ∈ visitedDirs w c → (visitedDirs w c).getLast? = some w) ∧
    (w ∉ visitedDirs w c → ∃ r, (visitedDirs w c).getLast? = some r ∧ dirname r = r) :=
  ⟨walkUpF_congr fs w f (dirMeasure c) c acc hf (Nat.le_refl _),
   walkUpF_eq_visited fs w (dirMeasure c) c acc (Nat.le_refl _),
   visitedDirsF_boundary w (dirMeasure c) c (Nat.le_refl _),
   visitedDirsF_root w (dirMeasure c) c (Nat.le_refl _)⟩

/-- Claim C5 witness: a concrete walk from `/w/a` with boundary `/w`. -/
theorem walkUp_terminates_and_respects_boundary_witness :
    walkUpF fsGood "/w" 10 "/w/a" [] = walkUp fsGood "/w" "/w/a" [] ∧
    walkUp fsGood "/w" "/w/a" [] =
      [] ++ ((visitedDirs "/w" "/w/a").map cfgPath).filter fsGood.accessOk ∧
    ("/w" ∈ visitedDirs "/w" "/w/a" → (visitedDirs "/w" "/w/a").getLast? = some "/w") ∧
    ("/w" ∉ visitedDirs "/w" "/w/a" →
      ∃ r, (visitedDirs "/w" "/w/a").getLast? = some r ∧ dirname r = r) :=
  walkUp_terminates_and_respects_boundary fsGood "/w" "/w/a" [] 10 (by decide)

end Allowlist
